import Mathlib

/-!
Verification of the rich-text substitution core of the certificate bulk
generator (`src/amma/certificate_generator/app.py`).

Strings are modelled as `List Char` (ASCII fragment of Python `str`).
Each definition mirrors one Python function of the source; machine-level
details that the source never exercises (unicode digit classes, XML
namespaces) are narrowed to the ASCII/boolean fragment actually used.
-/

/-- Python whitespace characters stripped by `str.strip()` / `int()`
(ASCII fragment). -/
def pyIsSpace (c : Char) : Bool :=
  c = ' ' || c = '\t' || c = '\n' || c = '\r' || c = '\x0b' || c = '\x0c'

/-- `\w` of Python `re` (ASCII fragment): letters, digits, underscore. -/
def isWordChar (c : Char) : Bool :=
  c.isAlpha || c.isDigit || c = '_'

/-- The decimal digit character for `n < 10` (clamped at `'9'`). -/
def digitChar (n : Nat) : Char :=
  if n = 0 then '0' else if n = 1 then '1' else if n = 2 then '2'
  else if n = 3 then '3' else if n = 4 then '4' else if n = 5 then '5'
  else if n = 6 then '6' else if n = 7 then '7' else if n = 8 then '8' else '9'

/-- Fuel-driven digit expansion (structural, so that the kernel can
evaluate it); `natToChars` supplies enough fuel. -/
def natToCharsAux : Nat → Nat → List Char
  | 0, _ => []
  | fuel + 1, n =>
    if n < 10 then [digitChar n]
    else natToCharsAux fuel (n / 10) ++ [digitChar (n % 10)]

/-- Decimal digit string of a natural number, as produced by Python `str`. -/
def natToChars (n : Nat) : List Char := natToCharsAux (n + 1) n

theorem natToCharsAux_congr : ∀ f1 f2 n, n < f1 → n < f2 →
    natToCharsAux f1 n = natToCharsAux f2 n := by
  intro f1
  induction f1 with
  | zero => omega
  | succ g ih =>
    intro f2 n h1 h2
    cases f2 with
    | zero => omega
    | succ g2 =>
      simp only [natToCharsAux]
      split
      · rfl
      · next h =>
        rw [ih g2 (n / 10) (by omega) (by omega)]

theorem natToChars_eq (n : Nat) : natToChars n =
    if n < 10 then [digitChar n]
    else natToChars (n / 10) ++ [digitChar (n % 10)] := by
  show natToCharsAux (n + 1) n = _
  simp only [natToCharsAux]
  split
  · rfl
  · next h =>
    rw [natToCharsAux_congr n (n / 10 + 1) (n / 10) (by omega) (by omega)]
    rfl

/-- Value denoted by a string of decimal digits (most significant first). -/
def digitsToNat (s : List Char) : Nat :=
  s.foldl (fun a c => 10 * a + (c.toNat - 48)) 0

/-- `str.strip()`: drop Python whitespace from both ends. -/
def stripWS (s : List Char) : List Char :=
  ((s.dropWhile pyIsSpace).reverse.dropWhile pyIsSpace).reverse

/-- No two adjacent underscores (part of Python `int()` literal syntax). -/
def noDoubleUnderscore : List Char → Bool
  | a :: b :: rest => !(a = '_' && b = '_') && noDoubleUnderscore (b :: rest)
  | _ => true

/-- Digit group accepted by Python `int()` after the optional sign:
nonempty, starts and ends with a digit, only digits and single
underscores in between. -/
def validDigitGroup (s : List Char) : Bool :=
  (match s.head? with | some c => c.isDigit | none => false) &&
  (match s.getLast? with | some c => c.isDigit | none => false) &&
  s.all (fun c => c.isDigit || c = '_') &&
  noDoubleUnderscore s

/-- Parse the digit group of a Python `int()` literal (underscores removed). -/
def parseDigitGroup (s : List Char) : Option Nat :=
  if validDigitGroup s then some (digitsToNat (s.filter (fun c => c ≠ '_')))
  else none

/-- Python `int(s)` for base 10: optional surrounding whitespace, optional
sign, digit group.  `none` models the `ValueError` that Python raises. -/
def pyInt (s : List Char) : Option Int :=
  match stripWS s with
  | [] => none
  | c :: rest =>
    if c = '+' then (parseDigitGroup rest).map Int.ofNat
    else if c = '-' then (parseDigitGroup rest).map (fun n => -(n : Int))
    else (parseDigitGroup (c :: rest)).map Int.ofNat

/-- Python `str(n)` for an integer. -/
def pyIntToString (n : Int) : List Char :=
  if n < 0 then '-' :: natToChars n.natAbs else natToChars n.toNat

/-- Python `str.zfill(w)`: left-pad with `'0'` to width `w`, keeping a
leading sign in place. -/
def zfill (s : List Char) (w : Nat) : List Char :=
  match s with
  | [] => List.replicate w '0'
  | c :: rest =>
    if c = '+' || c = '-' then c :: (List.replicate (w - (rest.length + 1)) '0' ++ rest)
    else List.replicate (w - (rest.length + 1)) '0' ++ (c :: rest)

/-- `increment_serial(serial, increment, preserve_length=True)` from the
source: parse with `int`, add, stringify, optionally zero-pad back to the
original width.  `none` models the propagated `ValueError`. -/
def increment_serial (serial : List Char) (inc : Int) (preserveLength : Bool) : Option (List Char) :=
  (pyInt serial).map fun num =>
    let s := pyIntToString (num + inc)
    if preserveLength then zfill s serial.length else s

/-! ### Occurrence indices and Python `find` / `rfind` / `in` / `replace` -/

/-- All indices `i` at which `needle` occurs in `hay` (i.e. `needle` is a
prefix of `hay.drop i`), in increasing order. -/
def occIdxs (hay needle : List Char) : List Nat :=
  (List.range (hay.length + 1)).filter (fun i => needle.isPrefixOf (hay.drop i))

/-- Python `hay.find(needle)` (as an `Option` instead of `-1`). -/
def strFind (hay needle : List Char) : Option Nat := (occIdxs hay needle).head?

/-- Python `hay.rfind(needle)` (as an `Option` instead of `-1`). -/
def strRFind (hay needle : List Char) : Option Nat := (occIdxs hay needle).getLast?

/-- Python `needle in hay`. -/
def strContains (hay needle : List Char) : Bool := !(occIdxs hay needle).isEmpty

/-- Number of occurrence positions of `needle` in `hay`. -/
def countOcc (hay needle : List Char) : Nat := (occIdxs hay needle).length

/-- `replace_last_occurrence(text, old, new)` from the source: replace only
the rightmost occurrence of `old`; unchanged when absent. -/
def replace_last_occurrence (text old new : List Char) : List Char :=
  match strRFind text old with
  | none => text
  | some p => text.take p ++ new ++ text.drop (p + old.length)

theorem natToChars_ne_nil (n : Nat) : natToChars n ≠ [] := by
  rw [natToChars_eq]
  split <;> simp

theorem digitChar_isDigit (n : Nat) : (digitChar n).isDigit := by
  unfold digitChar
  repeat' split
  all_goals decide

theorem natToChars_all_digit (n : Nat) : ∀ c ∈ natToChars n, c.isDigit := by
  induction n using Nat.strong_induction_on with
  | _ n ih =>
    rw [natToChars_eq]
    split
    · simpa using digitChar_isDigit n
    · intro c hc
      rcases List.mem_append.1 hc with h | h
      · exact ih (n / 10) (Nat.div_lt_self (by omega) (by omega)) c h
      · have hc' : c = digitChar (n % 10) := by simpa using h
        rw [hc']; exact digitChar_isDigit _

theorem digitChar_toNat (n : Nat) (h : n < 10) : (digitChar n).toNat = 48 + n := by
  interval_cases n <;> decide

theorem digitsToNat_append (s t : List Char) :
    digitsToNat (s ++ t) = t.foldl (fun a c => 10 * a + (c.toNat - 48)) (digitsToNat s) := by
  simp [digitsToNat, List.foldl_append]

theorem digitsToNat_natToChars (n : Nat) : digitsToNat (natToChars n) = n := by
  induction n using Nat.strong_induction_on with
  | _ n ih =>
    rw [natToChars_eq]
    split
    · next h =>
      simp [digitsToNat, digitChar_toNat n h]
    · next h =>
      rw [digitsToNat_append, ih (n / 10) (Nat.div_lt_self (by omega) (by omega))]
      simp [digitChar_toNat (n % 10) (Nat.mod_lt _ (by omega))]
      omega

theorem isDigit_ne_of (x : Char) {c : Char} (h : c.isDigit = true)
    (hx : x.isDigit = false) : c ≠ x := by
  intro hc; subst hc; simp [h] at hx

theorem isDigit_not_space {c : Char} (h : c.isDigit) : pyIsSpace c = false := by
  cases hc : pyIsSpace c
  · rfl
  · exfalso
    simp only [pyIsSpace, Bool.or_eq_true, decide_eq_true_eq] at hc
    rcases hc with ((((h1 | h1) | h1) | h1) | h1) | h1 <;>
      (subst h1; exact absurd h (by decide))

theorem dropWhile_eq_self_of_no_space (s : List Char) (h : ∀ c ∈ s, pyIsSpace c = false) :
    s.dropWhile pyIsSpace = s := by
  cases s with
  | nil => rfl
  | cons a t => simp [List.dropWhile_cons, h a (List.mem_cons_self a t)]

theorem stripWS_of_no_space (s : List Char) (h : ∀ c ∈ s, pyIsSpace c = false) :
    stripWS s = s := by
  unfold stripWS
  rw [dropWhile_eq_self_of_no_space s h,
    dropWhile_eq_self_of_no_space s.reverse (fun c hc => h c (List.mem_reverse.1 hc)),
    List.reverse_reverse]

theorem noDoubleUnderscore_of_digits (s : List Char) (h : ∀ c ∈ s, c.isDigit) :
    noDoubleUnderscore s = true := by
  induction s with
  | nil => rfl
  | cons a t ih =>
    cases t with
    | nil => rfl
    | cons b u =>
      have ha : a ≠ '_' := isDigit_ne_of '_' (h a (by simp)) (by decide)
      simp only [noDoubleUnderscore, Bool.and_eq_true]
      exact ⟨by simp [ha], ih (fun c hc => h c (List.mem_cons_of_mem a hc))⟩

theorem validDigitGroup_of_digits (s : List Char) (h1 : s ≠ []) (h2 : ∀ c ∈ s, c.isDigit) :
    validDigitGroup s = true := by
  unfold validDigitGroup
  have hh : (match s.head? with | some c => c.isDigit | none => false) = true := by
    cases s with
    | nil => exact absurd rfl h1
    | cons a t => exact h2 a (by simp)
  have hl : (match s.getLast? with | some c => c.isDigit | none => false) = true := by
    rw [List.getLast?_eq_getLast s h1]
    exact h2 _ (List.getLast_mem h1)
  rw [hh, hl, noDoubleUnderscore_of_digits s h2]
  simp only [Bool.true_and, Bool.and_true, List.all_eq_true]
  intro c hc
  simp [h2 c hc]

theorem parseDigitGroup_digits (s : List Char) (h1 : s ≠ []) (h2 : ∀ c ∈ s, c.isDigit) :
    parseDigitGroup s = some (digitsToNat s) := by
  unfold parseDigitGroup
  rw [validDigitGroup_of_digits s h1 h2]
  simp only [if_true]
  congr 1
  congr 1
  exact List.filter_eq_self.2 (fun c hc => by simp [isDigit_ne_of '_' (h2 c hc) (by decide)])

theorem pyInt_digits (s : List Char) (h1 : s ≠ []) (h2 : ∀ c ∈ s, c.isDigit) :
    pyInt s = some ((digitsToNat s : Nat) : Int) := by
  unfold pyInt
  rw [stripWS_of_no_space s (fun c hc => isDigit_not_space (h2 c hc))]
  cases s with
  | nil => exact absurd rfl h1
  | cons a t =>
    have ha1 : a ≠ '+' := isDigit_ne_of '+' (h2 a (by simp)) (by decide)
    have ha2 : a ≠ '-' := isDigit_ne_of '-' (h2 a (by simp)) (by decide)
    simp only [ha1, ha2, if_false]
    rw [parseDigitGroup_digits (a :: t) (by simp) h2]
    rfl

theorem zfill_digits (s : List Char) (w : Nat) (hne : s ≠ []) (h : ∀ c ∈ s, c.isDigit) :
    zfill s w = List.replicate (w - s.length) '0' ++ s := by
  cases s with
  | nil => exact absurd rfl hne
  | cons a t =>
    have ha1 : a ≠ '+' := isDigit_ne_of '+' (h a (by simp)) (by decide)
    have ha2 : a ≠ '-' := isDigit_ne_of '-' (h a (by simp)) (by decide)
    simp [zfill, ha1, ha2]

theorem pyIntToString_ofNat (n : Nat) : pyIntToString ((n : Nat) : Int) = natToChars n := by
  unfold pyIntToString
  rw [if_neg (Int.not_lt.mpr (Int.ofNat_nonneg n))]
  simp

theorem digitsToNat_zero_cons (l : List Char) : digitsToNat ('0' :: l) = digitsToNat l := by
  have h : (10 * 0 + ('0'.toNat - 48)) = 0 := by decide
  simp [digitsToNat, List.foldl_cons, h]

theorem digitsToNat_replicate_zero_append (k : Nat) (s : List Char) :
    digitsToNat (List.replicate k '0' ++ s) = digitsToNat s := by
  induction k with
  | zero => simp
  | succ k ih => rw [List.replicate_succ, List.cons_append, digitsToNat_zero_cons, ih]

/-- **C4 counterexample.** `increment_serial("-5", 1)` does *not* fail even
though `"-5"` denotes a negative value: Python `int("-5")` parses, and the
function returns `"-4"`. -/
theorem increment_serial_negative_cex :
    increment_serial ("-5".toList) 1 true = some ("-4".toList) ∧
    ∃ n : Int, pyInt ("-5".toList) = some n ∧ n < 0 :=
  ⟨by decide, ⟨-5, by decide, by decide⟩⟩

/-- **C4 (amended).** `increment_serial` fails exactly when Python
`int(serial)` fails, i.e. when `serial` is not parseable as an optionally
signed base-10 integer; every non-empty all-digit string (leading zeros
permitted) parses to its denoted value and so returns normally, and strings
denoting negative values also return normally instead of failing. -/
theorem increment_serial_failure_iff (s : List Char) (inc : Int) (pl : Bool) :
    (increment_serial s inc pl = none ↔ pyInt s = none) ∧
    (s ≠ [] → (∀ c ∈ s, c.isDigit) → pyInt s = some ((digitsToNat s : Nat) : Int)) := by
  constructor
  · unfold increment_serial
    cases h : pyInt s <;> simp [h]
  · intro h1 h2
    exact pyInt_digits s h1 h2

/-- Witness for C4 (amended) at the digit string `"0042"`. -/
theorem increment_serial_failure_iff_witness :
    (increment_serial ("0042".toList) 3 true = none ↔ pyInt ("0042".toList) = none) ∧
    pyInt ("0042".toList) = some ((digitsToNat ("0042".toList) : Nat) : Int) :=
  ⟨(increment_serial_failure_iff ("0042".toList) 3 true).1,
   (increment_serial_failure_iff ("0042".toList) 3 true).2 (by decide) (by decide)⟩

/-- **C5.** For a serial that is a non-empty digit string and `delta ≥ 0`
with width preservation on: if the decimal representation of
`value(s)+delta` has no more digits than `len(s)`, the result has length
exactly `len(s)` (zero-padded on the left) and denotes `value(s)+delta`;
if it has more digits, the result is exactly that longer decimal
representation — no truncation and no error. -/
theorem increment_serial_width (s : List Char) (delta : Nat)
    (h1 : s ≠ []) (h2 : ∀ c ∈ s, c.isDigit) :
    ∃ r, increment_serial s ((delta : Nat) : Int) true = some r ∧
      ((natToChars (digitsToNat s + delta)).length ≤ s.length →
        r.length = s.length ∧ digitsToNat r = digitsToNat s + delta ∧ ∀ c ∈ r, c.isDigit) ∧
      (s.length < (natToChars (digitsToNat s + delta)).length →
        r = natToChars (digitsToNat s + delta)) := by
  have hp := pyInt_digits s h1 h2
  have hcast : ((digitsToNat s : Nat) : Int) + ((delta : Nat) : Int)
      = ((digitsToNat s + delta : Nat) : Int) := by push_cast; ring
  have hdef : increment_serial s ((delta : Nat) : Int) true
      = (pyInt s).map (fun num => zfill (pyIntToString (num + ((delta : Nat) : Int))) s.length) :=
    rfl
  refine ⟨zfill (natToChars (digitsToNat s + delta)) s.length, ?_, ?_, ?_⟩
  · rw [hdef, hp, Option.map_some', hcast, pyIntToString_ofNat]
  · intro hle
    rw [zfill_digits _ _ (natToChars_ne_nil _) (natToChars_all_digit _)]
    refine ⟨?_, ?_, ?_⟩
    · simp only [List.length_append, List.length_replicate]
      omega
    · rw [digitsToNat_replicate_zero_append, digitsToNat_natToChars]
    · intro c hc
      rcases List.mem_append.1 hc with h | h
      · rw [List.eq_of_mem_replicate h]; decide
      · exact natToChars_all_digit _ c h
  · intro hlt
    rw [zfill_digits _ _ (natToChars_ne_nil _) (natToChars_all_digit _)]
    rw [Nat.sub_eq_zero_of_le (Nat.le_of_lt hlt)]
    simp

/-- Witness for C5 at `s = "098"`, `delta = 5` (value 103, same width). -/
theorem increment_serial_width_witness :
    ∃ r, increment_serial ("098".toList) ((5 : Nat) : Int) true = some r ∧
      ((natToChars (digitsToNat ("098".toList) + 5)).length ≤ ("098".toList).length →
        r.length = ("098".toList).length ∧ digitsToNat r = digitsToNat ("098".toList) + 5 ∧
          ∀ c ∈ r, c.isDigit) ∧
      (("098".toList).length < (natToChars (digitsToNat ("098".toList) + 5)).length →
        r = natToChars (digitsToNat ("098".toList) + 5)) :=
  increment_serial_width ("098".toList) 5 (by decide) (by decide)

/-! ### Paragraph runs and `replace_in_paragraph` -/

/-- A run of a paragraph: a text fragment plus its formatting profile.
`fmt` abstracts font/size/style, `highlight` the highlight colour,
`hasDrawing`/`hasPageBr` whether the run's XML holds a `w:drawing` or a
page-type `w:br` element (inspected by the blank-page cleanup). -/
structure Run where
  text : List Char
  fmt : Nat
  highlight : Bool
  hasDrawing : Bool
  hasPageBr : Bool
deriving DecidableEq

/-- A plain run with default formatting (used in concrete instances). -/
def mkRun (t : List Char) : Run := ⟨t, 0, false, false, false⟩

/-- `paragraph.text`: the concatenation of the run texts. -/
def paraText : List Run → List Char
  | [] => []
  | r :: rest => r.text ++ paraText rest

/-- Python `hay.replace("", new)` interleaving (between every character). -/
def interleaveEmpty (new : List Char) : List Char → List Char
  | [] => []
  | c :: rest => c :: (new ++ interleaveEmpty new rest)

/-- Fuel-driven scanner of Python `str.replace` for a non-empty pattern:
left-to-right, non-overlapping, replace all. -/
def replaceAllPosAux : Nat → List Char → List Char → List Char → List Char
  | 0, hay, _, _ => hay
  | fuel + 1, hay, old, new =>
    if old ≠ [] ∧ old.isPrefixOf hay then
      new ++ replaceAllPosAux fuel (hay.drop old.length) old new
    else
      match hay with
      | [] => []
      | c :: rest => c :: replaceAllPosAux fuel rest old new

/-- Python `hay.replace(old, new)` for non-empty `old`. -/
def replaceAllPos (hay old new : List Char) : List Char :=
  replaceAllPosAux (hay.length + 1) hay old new

/-- Python `hay.replace(old, new)` (all occurrences, incl. the empty-pattern
interleaving case). -/
def replaceAll (hay old new : List Char) : List Char :=
  if old.isEmpty then new ++ interleaveEmpty new hay
  else replaceAllPos hay old new

/-- The fast path of `replace_in_paragraph`: the first run whose text
contains `old` gets a replace-all; `none` when no single run contains
`old`. -/
def fastReplace : List Run → List Char → List Char → Option (List Run)
  | [], _, _ => none
  | r :: rest, old, new =>
    if strContains r.text old then
      some ({ r with text := replaceAll r.text old new } :: rest)
    else (fastReplace rest old new).map (r :: ·)

/-- Clearing loop of the run-spanning case: clear whole runs while
`remaining` covers them, then drop the consumed prefix of the last
partially covered run. -/
def clearRuns : List Run → Nat → List Run
  | [], _ => []
  | r :: rest, remaining =>
    if r.text.length ≤ remaining then
      { r with text := [] } :: clearRuns rest (remaining - r.text.length)
    else
      { r with text := r.text.drop remaining } :: rest

/-- The run-boundary scan of `replace_in_paragraph`: find the run whose
`[runStart, runEnd)` interval contains `start`, splice `new` there, clear
the covered tail runs. -/
def applySpan : List Run → Nat → Nat → Nat → List Char → List Run
  | [], _, _, _, _ => []
  | r :: rest, pos, start, endp, new =>
    if pos ≤ start ∧ start < pos + r.text.length then
      if endp ≤ pos + r.text.length then
        { r with text := r.text.take (start - pos) ++ new ++ r.text.drop (endp - pos) } :: rest
      else
        { r with text := r.text.take (start - pos) ++ new } ::
          clearRuns rest (endp - (pos + r.text.length))
    else r :: applySpan rest (pos + r.text.length) start endp new

/-- `replace_in_paragraph(paragraph, old_text, new_text)` from the source:
no-op when `old_text` is absent from the flattened text or the paragraph
has no runs; otherwise a same-run replace-all on the first run containing
`old_text`, falling back to the run-spanning splice. -/
def replace_in_paragraph (runs : List Run) (old new : List Char) : List Run :=
  if strContains (paraText runs) old = false then runs
  else if runs = [] then runs
  else
    match fastReplace runs old new with
    | some rs => rs
    | none =>
      let start := (strFind (paraText runs) old).getD 0
      applySpan runs 0 start (start + old.length) new

theorem paraText_append (a b : List Run) : paraText (a ++ b) = paraText a ++ paraText b := by
  induction a with
  | nil => rfl
  | cons r t ih => simp [paraText, ih]

theorem mem_occIdxs_iff (hay needle : List Char) (hne : needle ≠ []) (i : Nat) :
    i ∈ occIdxs hay needle ↔ needle <+: hay.drop i := by
  unfold occIdxs
  rw [List.mem_filter, List.mem_range]
  constructor
  · intro ⟨_, h⟩
    exact List.isPrefixOf_iff_prefix.1 h
  · intro h
    refine ⟨?_, List.isPrefixOf_iff_prefix.2 h⟩
    by_contra hi
    have hd : hay.drop i = [] := List.drop_eq_nil_of_le (by omega)
    rw [hd] at h
    exact hne (List.prefix_nil.1 h)

theorem drop_of_append_decomp (s needle t : List Char) :
    (s ++ needle ++ t).drop s.length = needle ++ t := by
  rw [List.append_assoc, List.drop_left]

theorem prefix_drop_of_decomp (hay needle : List Char) {s t : List Char}
    (h : hay = s ++ needle ++ t) : needle <+: hay.drop s.length := by
  rw [h, drop_of_append_decomp]
  exact List.prefix_append needle t

theorem infix_of_prefix_drop (hay needle : List Char) (i : Nat)
    (h : needle <+: hay.drop i) : needle <:+: hay := by
  obtain ⟨t, ht⟩ := h
  exact ⟨hay.take i, t, by rw [List.append_assoc, ht, List.take_append_drop]⟩

theorem strContains_iff (hay needle : List Char) :
    strContains hay needle = true ↔ needle <:+: hay := by
  unfold strContains
  rw [Bool.not_eq_true', List.isEmpty_eq_false_iff_exists_mem]
  constructor
  · intro ⟨i, hi⟩
    unfold occIdxs at hi
    rw [List.mem_filter] at hi
    exact infix_of_prefix_drop hay needle i (List.isPrefixOf_iff_prefix.1 hi.2)
  · intro ⟨s, t, h⟩
    refine ⟨s.length, ?_⟩
    unfold occIdxs
    rw [List.mem_filter, List.mem_range]
    constructor
    · have : hay.length = s.length + needle.length + t.length := by
        rw [← h]; simp [List.length_append]; omega
      omega
    · exact List.isPrefixOf_iff_prefix.2 (prefix_drop_of_decomp hay needle h.symm)

theorem occIdxs_singleton_unique (hay needle : List Char) (i : Nat) (hne : needle ≠ [])
    (hocc : occIdxs hay needle = [i]) :
    ∀ pre suf, hay = pre ++ needle ++ suf →
      pre = hay.take i ∧ suf = hay.drop (i + needle.length) ∧ pre.length = i := by
  intro pre suf h
  have hmem : pre.length ∈ occIdxs hay needle := by
    rw [mem_occIdxs_iff hay needle hne]
    exact prefix_drop_of_decomp hay needle h
  rw [hocc, List.mem_singleton] at hmem
  subst hmem
  refine ⟨?_, ?_, rfl⟩
  · rw [h, List.append_assoc, List.take_left]
  · rw [h, ← List.length_append, List.drop_left]

theorem replaceAllPosAux_congr : ∀ f1 f2 hay old new, hay.length < f1 → hay.length < f2 →
    replaceAllPosAux f1 hay old new = replaceAllPosAux f2 hay old new := by
  intro f1
  induction f1 with
  | zero => intro f2 hay old new h1 _; exact absurd h1 (Nat.not_lt_zero _)
  | succ g ih =>
    intro f2 hay old new h1 h2
    cases f2 with
    | zero => exact absurd h2 (Nat.not_lt_zero _)
    | succ g2 =>
      simp only [replaceAllPosAux]
      by_cases hc : old ≠ [] ∧ old.isPrefixOf hay
      · rw [if_pos hc, if_pos hc]
        have hlen : old.length ≤ hay.length :=
          (List.isPrefixOf_iff_prefix.1 hc.2).length_le
        have hpos : 0 < old.length := List.length_pos.2 hc.1
        rw [ih g2 (hay.drop old.length) old new
          (by rw [List.length_drop]; omega) (by rw [List.length_drop]; omega)]
      · rw [if_neg hc, if_neg hc]
        cases hay with
        | nil => rfl
        | cons c rest =>
          simp only [List.length_cons] at h1 h2
          simp only [ih g2 rest old new (by omega) (by omega)]

theorem replaceAllPos_eq (hay old new : List Char) :
    replaceAllPos hay old new =
      if old ≠ [] ∧ old.isPrefixOf hay then
        new ++ replaceAllPos (hay.drop old.length) old new
      else
        match hay with
        | [] => []
        | c :: rest => c :: replaceAllPos rest old new := by
  show replaceAllPosAux (hay.length + 1) hay old new = _
  simp only [replaceAllPosAux]
  by_cases hc : old ≠ [] ∧ old.isPrefixOf hay
  · rw [if_pos hc, if_pos hc]
    have hlen : old.length ≤ hay.length :=
      (List.isPrefixOf_iff_prefix.1 hc.2).length_le
    have hpos : 0 < old.length := List.length_pos.2 hc.1
    congr 1
    exact replaceAllPosAux_congr hay.length ((hay.drop old.length).length + 1)
      (hay.drop old.length) old new (by rw [List.length_drop]; omega) (by omega)
  · rw [if_neg hc, if_neg hc]
    cases hay with
    | nil => rfl
    | cons c rest =>
      simp only [List.length_cons]
      rfl

theorem replaceAllPos_no_occ (old new : List Char) (hne : old ≠ []) :
    ∀ hay, ¬ old <:+: hay → replaceAllPos hay old new = hay := by
  intro hay
  induction hay with
  | nil =>
    intro _
    rw [replaceAllPos_eq, if_neg]
    intro ⟨_, hp⟩
    exact hne (List.prefix_nil.1 (List.isPrefixOf_iff_prefix.1 hp))
  | cons c rest ih =>
    intro h
    have hneg : ¬(old ≠ [] ∧ old.isPrefixOf (c :: rest)) := by
      intro ⟨_, hp⟩
      exact h ((List.isPrefixOf_iff_prefix.1 hp).isInfix)
    rw [replaceAllPos_eq, if_neg hneg]
    show c :: replaceAllPos rest old new = c :: rest
    rw [ih (fun hr => h (List.infix_cons hr))]

theorem replaceAllPos_unique (old new : List Char) (hne : old ≠ []) :
    ∀ pre suf, (∀ pre' suf', pre ++ old ++ suf = pre' ++ old ++ suf' → pre' = pre) →
      replaceAllPos (pre ++ old ++ suf) old new = pre ++ new ++ suf := by
  intro pre
  induction pre with
  | nil =>
    intro suf huniq
    have hpre : old.isPrefixOf (([] : List Char) ++ old ++ suf) := by
      rw [List.isPrefixOf_iff_prefix, List.nil_append]
      exact List.prefix_append old suf
    rw [replaceAllPos_eq, if_pos ⟨hne, hpre⟩]
    have hdrop : (([] : List Char) ++ old ++ suf).drop old.length = suf := by
      rw [List.nil_append, List.drop_left]
    rw [hdrop]
    have hnocc : ¬ old <:+: suf := by
      intro ⟨s, t, hst⟩
      have h0 : old ++ s = [] := huniq (old ++ s) t (by rw [← hst]; simp)
      exact hne (List.append_eq_nil.1 h0).1
    rw [replaceAllPos_no_occ old new hne suf hnocc]
    simp
  | cons c pre ih =>
    intro suf huniq
    have hneg : ¬(old ≠ [] ∧ old.isPrefixOf ((c :: pre) ++ old ++ suf)) := by
      intro ⟨_, hp⟩
      obtain ⟨t, ht⟩ := List.isPrefixOf_iff_prefix.1 hp
      have h0 : ([] : List Char) = c :: pre := huniq [] t (by rw [← ht]; simp)
      exact List.cons_ne_nil c pre h0.symm
    rw [replaceAllPos_eq, if_neg hneg]
    show c :: replaceAllPos (pre ++ old ++ suf) old new = (c :: pre) ++ new ++ suf
    have huniq' : ∀ pre' suf', pre ++ old ++ suf = pre' ++ old ++ suf' → pre' = pre := by
      intro pre' suf' h
      have h0 : c :: pre' = c :: pre := huniq (c :: pre') suf' (by
        show c :: (pre ++ old ++ suf) = (c :: pre') ++ old ++ suf'
        rw [h]; rfl)
      injection h0 with _ h2
    rw [ih suf huniq']
    rfl

theorem replaceAll_of_ne_nil (hay old new : List Char) (hne : old ≠ []) :
    replaceAll hay old new = replaceAllPos hay old new := by
  cases old with
  | nil => exact absurd rfl hne
  | cons c t => rfl

theorem clearRuns_concat :
    ∀ (runs : List Run) (rem : Nat), rem ≤ (paraText runs).length →
      paraText (clearRuns runs rem) = (paraText runs).drop rem := by
  intro runs
  induction runs with
  | nil => intro rem _; simp [clearRuns, paraText]
  | cons r rest ih =>
    intro rem h
    simp only [paraText, List.length_append] at h
    simp only [clearRuns]
    by_cases hc : r.text.length ≤ rem
    · rw [if_pos hc]
      simp only [paraText, List.nil_append]
      rw [ih (rem - r.text.length) (by omega)]
      rw [List.drop_append_eq_append_drop, List.drop_eq_nil_of_le hc, List.nil_append]
    · rw [if_neg hc]
      simp only [paraText]
      rw [List.drop_append_eq_append_drop, Nat.sub_eq_zero_of_le (by omega), List.drop_zero]

theorem applySpan_spec (new : List Char) :
    ∀ (runs : List Run) (pos start endp : Nat), pos ≤ start → start < endp →
      endp ≤ pos + (paraText runs).length →
      paraText (applySpan runs pos start endp new)
        = (paraText runs).take (start - pos) ++ new ++ (paraText runs).drop (endp - pos)
      ∧ ∃ r ∈ applySpan runs pos start endp new, new <:+: r.text := by
  intro runs
  induction runs with
  | nil =>
    intro pos start endp h1 h2 h3
    exfalso
    simp only [paraText, List.length_nil] at h3
    omega
  | cons r rest ih =>
    intro pos start endp h1 h2 h3
    simp only [paraText, List.length_append] at h3
    simp only [applySpan]
    by_cases hcs : start < pos + r.text.length
    · rw [if_pos ⟨h1, hcs⟩]
      by_cases hce : endp ≤ pos + r.text.length
      · rw [if_pos hce]
        constructor
        · simp only [paraText]
          rw [List.take_append_eq_append_take, List.drop_append_eq_append_drop]
          rw [show start - pos - r.text.length = 0 from by omega,
            show endp - pos - r.text.length = 0 from by omega]
          simp [List.append_assoc]
        · refine ⟨_, List.mem_cons_self _ _, ?_⟩
          exact ⟨r.text.take (start - pos), r.text.drop (endp - pos), rfl⟩
      · rw [if_neg hce]
        constructor
        · simp only [paraText]
          rw [clearRuns_concat rest (endp - (pos + r.text.length)) (by omega)]
          rw [List.take_append_eq_append_take, List.drop_append_eq_append_drop]
          rw [show start - pos - r.text.length = 0 from by omega]
          rw [List.drop_eq_nil_of_le (show r.text.length ≤ endp - pos from by omega)]
          rw [show endp - pos - r.text.length = endp - (pos + r.text.length) from by omega]
          simp [List.append_assoc]
        · refine ⟨_, List.mem_cons_self _ _, ?_⟩
          exact ⟨r.text.take (start - pos), [], by simp⟩
    · rw [if_neg (fun hx => hcs hx.2)]
      have h1' : pos + r.text.length ≤ start := by omega
      obtain ⟨hconcat, hex⟩ := ih (pos + r.text.length) start endp h1' h2 (by omega)
      constructor
      · simp only [paraText]
        rw [hconcat]
        rw [List.take_append_eq_append_take, List.drop_append_eq_append_drop]
        rw [List.take_of_length_le (show r.text.length ≤ start - pos from by omega),
          List.drop_eq_nil_of_le (show r.text.length ≤ endp - pos from by omega)]
        rw [show start - pos - r.text.length = start - (pos + r.text.length) from by omega,
          show endp - pos - r.text.length = endp - (pos + r.text.length) from by omega]
        simp [List.append_assoc]
      · obtain ⟨rr, hrr, hinf⟩ := hex
        exact ⟨rr, List.mem_cons_of_mem r hrr, hinf⟩

theorem fastReplace_none_all (old new : List Char) :
    ∀ runs, fastReplace runs old new = none → ∀ r ∈ runs, strContains r.text old = false := by
  intro runs
  induction runs with
  | nil => intro _ r hr; exact absurd hr (List.not_mem_nil r)
  | cons r0 rest ih =>
    intro h r hr
    simp only [fastReplace] at h
    by_cases hc : strContains r0.text old = true
    · rw [if_pos hc] at h
      exact absurd h (by simp)
    · rw [if_neg hc] at h
      rcases List.mem_cons.1 hr with rfl | hr'
      · exact Bool.eq_false_iff.2 hc
      · cases hfr : fastReplace rest old new with
        | some rs => rw [hfr] at h; simp at h
        | none => exact ih hfr r hr'

theorem fastReplace_some_decomp (old new : List Char) :
    ∀ runs rs, fastReplace runs old new = some rs →
      ∃ a r b, runs = a ++ r :: b ∧ (∀ r' ∈ a, strContains r'.text old = false) ∧
        strContains r.text old = true ∧
        rs = a ++ { r with text := replaceAll r.text old new } :: b := by
  intro runs
  induction runs with
  | nil => intro rs h; simp [fastReplace] at h
  | cons r0 rest ih =>
    intro rs h
    simp only [fastReplace] at h
    by_cases hc : strContains r0.text old = true
    · rw [if_pos hc] at h
      refine ⟨[], r0, rest, by simp, by simp, hc, ?_⟩
      simpa using h.symm
    · rw [if_neg hc] at h
      cases hfr : fastReplace rest old new with
      | none => rw [hfr] at h; simp at h
      | some rs' =>
        rw [hfr] at h
        simp only [Option.map_some'] at h
        obtain ⟨a, r, b, hruns, ha, hr, hrs⟩ := ih rs' hfr
        refine ⟨r0 :: a, r, b, by rw [hruns]; rfl, ?_, hr, ?_⟩
        · intro r' hr'
          rcases List.mem_cons.1 hr' with rfl | h'
          · exact Bool.eq_false_iff.2 hc
          · exact ha r' h'
        · injection h with h2
          rw [← h2, hrs]
          rfl

theorem fastReplace_append (old new : List Char) (a : List Run) (r : Run) (b : List Run)
    (ha : ∀ r' ∈ a, strContains r'.text old = false) (hr : strContains r.text old = true) :
    fastReplace (a ++ r :: b) old new
      = some (a ++ { r with text := replaceAll r.text old new } :: b) := by
  induction a with
  | nil => simp [fastReplace, hr]
  | cons r0 a ih =>
    have h0 : strContains r0.text old = false := ha r0 (by simp)
    simp only [List.cons_append, fastReplace]
    rw [if_neg (by simp [h0])]
    rw [show a.append (r :: b) = a ++ r :: b from rfl,
      ih (fun r' h' => ha r' (List.mem_cons_of_mem r0 h'))]
    rfl

/-- **C1.** For every paragraph (list of runs) and non-empty `old` occurring
exactly once in the concatenation of the run texts, after
`replace_in_paragraph` the concatenation of the run texts equals the
original concatenation with that occurrence of `old` replaced by `new` —
no characters dropped or duplicated — and the entire `new` text sits
contiguously inside a single run, in both the contained and the
run-spanning case. -/
theorem replace_in_paragraph_unique_occurrence (runs : List Run) (old new : List Char)
    (hne : old ≠ []) (hcount : countOcc (paraText runs) old = 1) :
    (∀ pre suf, paraText runs = pre ++ old ++ suf →
        paraText (replace_in_paragraph runs old new) = pre ++ new ++ suf) ∧
    ∃ r ∈ replace_in_paragraph runs old new, new <:+: r.text := by
  unfold countOcc at hcount
  obtain ⟨i, hocc⟩ := List.length_eq_one.1 hcount
  have hiocc : old <+: (paraText runs).drop i :=
    (mem_occIdxs_iff _ _ hne i).1 (by rw [hocc]; exact List.mem_singleton.2 rfl)
  have hinf : old <:+: paraText runs := infix_of_prefix_drop _ _ i hiocc
  have hcontains : strContains (paraText runs) old = true := (strContains_iff _ _).2 hinf
  have hrne : ¬ (runs = []) := by
    intro h
    subst h
    rw [show paraText [] = [] from rfl, List.infix_nil] at hinf
    exact hne hinf
  have hpos : 0 < old.length := List.length_pos.2 hne
  have hdlen : old.length ≤ (paraText runs).length - i := by
    have := hiocc.length_le
    rwa [List.length_drop] at this
  have hilen : i + old.length ≤ (paraText runs).length := by omega
  cases hfr : fastReplace runs old new with
  | some rs =>
    have hstep : replace_in_paragraph runs old new = rs := by
      unfold replace_in_paragraph
      rw [hcontains, hfr]
      simp [hrne]
    obtain ⟨a, r, b, hruns, ha, hr, hrs⟩ := fastReplace_some_decomp old new runs rs hfr
    have hfull : paraText runs = paraText a ++ r.text ++ paraText b := by
      rw [hruns, paraText_append]
      simp [paraText, List.append_assoc]
    obtain ⟨p1, s1, hrt⟩ := (strContains_iff _ _).1 hr
    have hg : paraText runs = (paraText a ++ p1) ++ old ++ (s1 ++ paraText b) := by
      rw [hfull, ← hrt]
      simp [List.append_assoc]
    have huniqr : ∀ pre' suf', p1 ++ old ++ s1 = pre' ++ old ++ suf' → pre' = p1 := by
      intro pre' suf' h
      have hg2 : paraText runs = (paraText a ++ pre') ++ old ++ (suf' ++ paraText b) := by
        rw [hfull, ← hrt, h]
        simp [List.append_assoc]
      have u1 := occIdxs_singleton_unique _ _ i hne hocc _ _ hg
      have u2 := occIdxs_singleton_unique _ _ i hne hocc _ _ hg2
      have heq : paraText a ++ pre' = paraText a ++ p1 := by rw [u2.1, ← u1.1]
      exact List.append_cancel_left heq
    have hrepl : replaceAll r.text old new = p1 ++ new ++ s1 := by
      rw [replaceAll_of_ne_nil _ _ _ hne, ← hrt]
      exact replaceAllPos_unique old new hne p1 s1 huniqr
    constructor
    · intro pre suf hdecomp
      have u1 := occIdxs_singleton_unique _ _ i hne hocc _ _ hg
      have u3 := occIdxs_singleton_unique _ _ i hne hocc _ _ hdecomp
      have hpre : pre = paraText a ++ p1 := by rw [u3.1, u1.1]
      have hsuf : suf = s1 ++ paraText b := by rw [u3.2.1, u1.2.1]
      rw [hstep, hrs, paraText_append]
      simp only [paraText]
      rw [hrepl, hpre, hsuf]
      simp [List.append_assoc]
    · refine ⟨{ r with text := replaceAll r.text old new }, ?_, ?_⟩
      · rw [hstep, hrs]
        exact List.mem_append.2 (Or.inr (List.mem_cons_self _ _))
      · show new <:+: replaceAll r.text old new
        rw [hrepl]
        exact ⟨p1, s1, rfl⟩
  | none =>
    have hfind : strFind (paraText runs) old = some i := by
      unfold strFind
      rw [hocc]
      rfl
    have hstep : replace_in_paragraph runs old new
        = applySpan runs 0 i (i + old.length) new := by
      unfold replace_in_paragraph
      rw [hcontains, hfr, hfind]
      simp [hrne]
    obtain ⟨hconcat, hex⟩ := applySpan_spec new runs 0 i (i + old.length)
      (Nat.zero_le i) (by omega) (by omega)
    constructor
    · intro pre suf hdecomp
      have u3 := occIdxs_singleton_unique _ _ i hne hocc _ _ hdecomp
      rw [hstep, hconcat, Nat.sub_zero, Nat.sub_zero, ← u3.1, ← u3.2.1]
    · rw [hstep]
      exact hex

/-- Witness for C1 at a run-spanning instance: `"world"` crosses the runs
`"Hello "`, `"wor"`, `"ld!"`. -/
theorem replace_in_paragraph_unique_occurrence_witness :
    paraText (replace_in_paragraph
        [mkRun ("Hello ".toList), mkRun ("wor".toList), mkRun ("ld!".toList)]
        ("world".toList) ("Lean".toList)) = "Hello Lean!".toList :=
  ((replace_in_paragraph_unique_occurrence
      [mkRun ("Hello ".toList), mkRun ("wor".toList), mkRun ("ld!".toList)]
      ("world".toList) ("Lean".toList) (by decide) (by decide)).1
    ("Hello ".toList) ("!".toList) (by decide)).trans (by decide)

/-- **C10.** When `old` is not a substring of the paragraph's flattened text,
`replace_in_paragraph` is a silent no-op: it returns (no error is raised;
the embedding is total) with every run's text and formatting unchanged. -/
theorem replace_in_paragraph_noop_absent (runs : List Run) (old new : List Char)
    (h : ¬ old <:+: paraText runs) :
    replace_in_paragraph runs old new = runs := by
  have hc : strContains (paraText runs) old = false := by
    cases hb : strContains (paraText runs) old
    · rfl
    · exact absurd ((strContains_iff _ _).1 hb) h
  unfold replace_in_paragraph
  rw [hc]
  simp

/-- Witness for C10: `"xyz"` absent from `"Hello"`. -/
theorem replace_in_paragraph_noop_absent_witness :
    replace_in_paragraph [mkRun ("Hello".toList)] ("xyz".toList) ("!".toList)
      = [mkRun ("Hello".toList)] :=
  replace_in_paragraph_noop_absent [mkRun ("Hello".toList)] ("xyz".toList) ("!".toList)
    (by decide)

/-- **C3 counterexample.** On the single-run paragraph `"ABAB"` with
`old = "AB"`, `new = "X"`, `replace_in_paragraph` yields `"XX"`: *both*
occurrences inside the run are replaced (Python `str.replace` replaces
all), so no single-occurrence replacement of `"ABAB"` can equal the
result — the claim "replaces exactly one occurrence" fails. -/
theorem replace_in_paragraph_multi_replace_cex :
    paraText (replace_in_paragraph [mkRun ("ABAB".toList)] ("AB".toList) ("X".toList))
      = "XX".toList ∧
    ¬ ∃ pre suf, "ABAB".toList = pre ++ "AB".toList ++ suf ∧
        "XX".toList = pre ++ "X".toList ++ suf := by
  constructor
  · decide
  · intro ⟨pre, suf, h1, h2⟩
    have l1 := congrArg List.length h1
    have l2 := congrArg List.length h2
    simp [List.length_append] at l1 l2
    omega

/-- **C3 (amended).**  `replace_in_paragraph` replaces occurrences via the
first run whose text contains `old`: *every* occurrence of `old` inside
that run's text is replaced (Python replace-all), other runs are left
unchanged; so when `old` occurs more than once within a single run, more
than one occurrence is replaced (exactly one only when the flattened text
has a unique occurrence). -/
theorem replace_in_paragraph_fast_path (a : List Run) (r : Run) (b : List Run)
    (old new : List Char)
    (ha : ∀ r' ∈ a, strContains r'.text old = false)
    (hr : strContains r.text old = true) :
    replace_in_paragraph (a ++ r :: b) old new
      = a ++ { r with text := replaceAll r.text old new } :: b := by
  have hinf_r : old <:+: r.text := (strContains_iff _ _).1 hr
  have hinf : old <:+: paraText (a ++ r :: b) := by
    rw [paraText_append]
    obtain ⟨s, t, hst⟩ := hinf_r
    exact ⟨paraText a ++ s, t ++ paraText b, by
      simp only [paraText]
      rw [← hst]
      simp [List.append_assoc]⟩
  have hcontains : strContains (paraText (a ++ r :: b)) old = true :=
    (strContains_iff _ _).2 hinf
  have hrne : ¬ (a ++ r :: b = []) := by simp
  unfold replace_in_paragraph
  rw [hcontains, fastReplace_append old new a r b ha hr]
  simp [hrne]

/-- Witness for C3 (amended) at the `"ABAB"` instance. -/
theorem replace_in_paragraph_fast_path_witness :
    replace_in_paragraph ([] ++ mkRun ("ABAB".toList) :: []) ("AB".toList) ("X".toList)
      = [] ++ { mkRun ("ABAB".toList) with
          text := replaceAll ("ABAB".toList) ("AB".toList) ("X".toList) } :: [] ∧
    replaceAll ("ABAB".toList) ("AB".toList) ("X".toList) = "XX".toList :=
  ⟨replace_in_paragraph_fast_path [] (mkRun ("ABAB".toList)) [] ("AB".toList) ("X".toList)
      (fun r' h' => absurd h' (List.not_mem_nil r')) (by decide),
   by decide⟩

theorem getLastOption_mem : ∀ (l : List Nat) (p : Nat), l.getLast? = some p → p ∈ l := by
  intro l
  induction l with
  | nil => intro p h; simp [List.getLast?] at h
  | cons x t ih =>
    intro p h
    cases t with
    | nil =>
      simp [List.getLast?] at h
      simp [h]
    | cons y u =>
      rw [List.getLast?_cons_cons] at h
      exact List.mem_cons_of_mem x (ih p h)

theorem pairwise_lt_getLast_ge :
    ∀ (l : List Nat) (p : Nat), l.Pairwise (· < ·) → l.getLast? = some p →
      ∀ q ∈ l, q ≤ p := by
  intro l
  induction l with
  | nil => intro p _ _ q hq; exact absurd hq (List.not_mem_nil q)
  | cons x t ih =>
    intro p hpw hl q hq
    cases t with
    | nil =>
      simp [List.getLast?] at hl
      rcases List.mem_singleton.1 hq with rfl
      omega
    | cons y u =>
      rw [List.getLast?_cons_cons] at hl
      rcases List.mem_cons.1 hq with rfl | hq'
      · have hpmem : p ∈ y :: u := getLastOption_mem _ p hl
        have := (List.pairwise_cons.1 hpw).1 p hpmem
        omega
      · exact ih p (List.pairwise_cons.1 hpw).2 hl q hq'

/-- **C7.** `replace_last_occurrence` replaces only the rightmost occurrence
of `old`: with `p` the reported rightmost position, the result is
`text[:p] ++ new ++ text[p+len(old):]` (so every earlier occurrence, lying
in the unchanged prefix, survives), `old` occurs at `p`, and every
occurrence position is `≤ p`. -/
theorem replace_last_occurrence_rightmost (text old new : List Char) (p : Nat)
    (hne : old ≠ []) (hp : strRFind text old = some p) :
    replace_last_occurrence text old new = text.take p ++ new ++ text.drop (p + old.length)
    ∧ old <+: text.drop p
    ∧ ∀ q, old <+: text.drop q → q ≤ p := by
  have hp' : (occIdxs text old).getLast? = some p := hp
  have hpmem : p ∈ occIdxs text old := getLastOption_mem _ p hp'
  have hpocc : old <+: text.drop p := (mem_occIdxs_iff _ _ hne p).1 hpmem
  refine ⟨?_, hpocc, ?_⟩
  · unfold replace_last_occurrence
    rw [hp]
  · intro q hq
    exact pairwise_lt_getLast_ge _ p
      ((List.pairwise_lt_range _).filter _) hp' q ((mem_occIdxs_iff _ _ hne q).2 hq)

/-- Witness for C7 at the spec's example: only the rightmost `"1"` of
`"1687/2526/1"` is replaced by `"2"`. -/
theorem replace_last_occurrence_rightmost_witness :
    replace_last_occurrence ("1687/2526/1".toList) ("1".toList) ("2".toList)
      = "1687/2526/2".toList :=
  ((replace_last_occurrence_rightmost ("1687/2526/1".toList) ("1".toList) ("2".toList) 10
      (by decide) (by decide)).1).trans (by decide)

/-! ### `find_serial_patterns`: the two regex recognizers -/

/-- Tag of the rule that produced a pattern. -/
inductive PType where
  | slash_number
  | standalone_number
deriving DecidableEq

/-- One entry of `find_serial_patterns`: literal match, captured number,
start/end offsets, rule tag. -/
structure SerialPattern where
  full_match : List Char
  number : List Char
  start : Nat
  stop : Nat
  pattern_type : PType
deriving DecidableEq

/-- Length of the maximal digit run at the head. -/
def digitRunLen (l : List Char) : Nat := (l.takeWhile Char.isDigit).length

/-- `\b` after a digit: end of string or a non-word character. -/
def boundaryAfter (l : List Char) : Bool :=
  match l with
  | [] => true
  | c :: _ => !(isWordChar c)

/-- Fuel-driven scanner for `re.finditer(r'/(\d{3,})\b', text)`: at each
`'/'`, the greedy digit run of length ≥ 3 with a word boundary after it
matches (backtracking into the run cannot restore the boundary), and the
scan resumes at the match end; otherwise the scan advances one character. -/
def slashScanAux : Nat → List Char → Nat → List SerialPattern
  | 0, _, _ => []
  | _ + 1, [], _ => []
  | fuel + 1, c :: rest, pos =>
    if c = '/' then
      if 3 ≤ digitRunLen rest ∧ boundaryAfter (rest.drop (digitRunLen rest)) then
        ⟨'/' :: rest.take (digitRunLen rest), rest.take (digitRunLen rest), pos,
          pos + 1 + digitRunLen rest, PType.slash_number⟩ ::
          slashScanAux fuel (rest.drop (digitRunLen rest)) (pos + 1 + digitRunLen rest)
      else slashScanAux fuel rest (pos + 1)
    else slashScanAux fuel rest (pos + 1)

/-- All matches of the slash rule from offset `pos`. -/
def slashScan (l : List Char) (pos : Nat) : List SerialPattern :=
  slashScanAux (l.length + 1) l pos

/-- Fuel-driven scanner for `re.finditer(r'\b(\d{4,})\b', text)`: a match
starts at a digit preceded by a non-word character (or the start), takes
the maximal digit run of length ≥ 4, and needs a word boundary after it;
`prevWord` records whether the previous character was a word character. -/
def saScanAux : Nat → List Char → Nat → Bool → List SerialPattern
  | 0, _, _, _ => []
  | _ + 1, [], _, _ => []
  | fuel + 1, c :: rest, pos, prevWord =>
    if c.isDigit = true ∧ prevWord = false then
      if 4 ≤ 1 + digitRunLen rest ∧ boundaryAfter (rest.drop (digitRunLen rest)) then
        ⟨c :: rest.take (digitRunLen rest), c :: rest.take (digitRunLen rest), pos,
          pos + 1 + digitRunLen rest, PType.standalone_number⟩ ::
          saScanAux fuel (rest.drop (digitRunLen rest)) (pos + 1 + digitRunLen rest) true
      else saScanAux fuel rest (pos + 1) (isWordChar c)
    else saScanAux fuel rest (pos + 1) (isWordChar c)

/-- All matches of the standalone rule from offset `pos`. -/
def saScan (l : List Char) (pos : Nat) (prevWord : Bool) : List SerialPattern :=
  saScanAux (l.length + 1) l pos prevWord

/-- The dedup append of the source: a standalone match is appended only
when no already collected pattern has the same captured digit string. -/
def addStandalone (pats : List SerialPattern) (m : SerialPattern) : List SerialPattern :=
  if pats.any (fun p => p.number == m.number) then pats else pats ++ [m]

/-- `find_serial_patterns(text)` from the source: slash matches first, then
standalone matches filtered by the string dedup. -/
def find_serial_patterns (text : List Char) : List SerialPattern :=
  (saScan text 0 false).foldl addStandalone (slashScan text 0)

theorem slashScanAux_start_ge :
    ∀ fuel l pos, ∀ p ∈ slashScanAux fuel l pos, pos ≤ p.start := by
  intro fuel
  induction fuel with
  | zero => intro l pos p hp; simp [slashScanAux] at hp
  | succ f ih =>
    intro l pos p hp
    cases l with
    | nil => simp [slashScanAux] at hp
    | cons c rest =>
      simp only [slashScanAux] at hp
      by_cases hc : c = '/'
      · rw [if_pos hc] at hp
        by_cases hk : 3 ≤ digitRunLen rest ∧ boundaryAfter (rest.drop (digitRunLen rest)) = true
        · rw [if_pos hk] at hp
          rcases List.mem_cons.1 hp with rfl | hp'
          · exact Nat.le.refl
          · have := ih (rest.drop (digitRunLen rest)) (pos + 1 + digitRunLen rest) p hp'
            omega
        · rw [if_neg hk] at hp
          have := ih rest (pos + 1) p hp
          omega
      · rw [if_neg hc] at hp
        have := ih rest (pos + 1) p hp
        omega

theorem slashScanAux_sorted :
    ∀ fuel l pos, List.Sorted (· ≤ ·) ((slashScanAux fuel l pos).map SerialPattern.start) := by
  intro fuel
  induction fuel with
  | zero => intro l pos; simp [slashScanAux]
  | succ f ih =>
    intro l pos
    cases l with
    | nil => simp [slashScanAux]
    | cons c rest =>
      simp only [slashScanAux]
      by_cases hc : c = '/'
      · rw [if_pos hc]
        by_cases hk : 3 ≤ digitRunLen rest ∧ boundaryAfter (rest.drop (digitRunLen rest)) = true
        · rw [if_pos hk, List.map_cons, List.sorted_cons]
          refine ⟨?_, ih _ _⟩
          intro b hb
          obtain ⟨p, hp, rfl⟩ := List.mem_map.1 hb
          have := slashScanAux_start_ge f _ _ p hp
          show pos ≤ p.start
          omega
        · rw [if_neg hk]; exact ih _ _
      · rw [if_neg hc]; exact ih _ _

theorem slashScanAux_type :
    ∀ fuel l pos, ∀ p ∈ slashScanAux fuel l pos, p.pattern_type = PType.slash_number := by
  intro fuel
  induction fuel with
  | zero => intro l pos p hp; simp [slashScanAux] at hp
  | succ f ih =>
    intro l pos p hp
    cases l with
    | nil => simp [slashScanAux] at hp
    | cons c rest =>
      simp only [slashScanAux] at hp
      by_cases hc : c = '/'
      · rw [if_pos hc] at hp
        by_cases hk : 3 ≤ digitRunLen rest ∧ boundaryAfter (rest.drop (digitRunLen rest)) = true
        · rw [if_pos hk] at hp
          rcases List.mem_cons.1 hp with rfl | hp'
          · rfl
          · exact ih _ _ p hp'
        · rw [if_neg hk] at hp; exact ih _ _ p hp
      · rw [if_neg hc] at hp; exact ih _ _ p hp

theorem saScanAux_start_ge :
    ∀ fuel l pos pw, ∀ p ∈ saScanAux fuel l pos pw, pos ≤ p.start := by
  intro fuel
  induction fuel with
  | zero => intro l pos pw p hp; simp [saScanAux] at hp
  | succ f ih =>
    intro l pos pw p hp
    cases l with
    | nil => simp [saScanAux] at hp
    | cons c rest =>
      simp only [saScanAux] at hp
      by_cases hc : c.isDigit = true ∧ pw = false
      · rw [if_pos hc] at hp
        by_cases hk : 4 ≤ 1 + digitRunLen rest ∧ boundaryAfter (rest.drop (digitRunLen rest)) = true
        · rw [if_pos hk] at hp
          rcases List.mem_cons.1 hp with rfl | hp'
          · exact Nat.le.refl
          · have := ih (rest.drop (digitRunLen rest)) (pos + 1 + digitRunLen rest) true p hp'
            omega
        · rw [if_neg hk] at hp
          have := ih rest (pos + 1) (isWordChar c) p hp
          omega
      · rw [if_neg hc] at hp
        have := ih rest (pos + 1) (isWordChar c) p hp
        omega

theorem saScanAux_sorted :
    ∀ fuel l pos pw, List.Sorted (· ≤ ·) ((saScanAux fuel l pos pw).map SerialPattern.start) := by
  intro fuel
  induction fuel with
  | zero => intro l pos pw; simp [saScanAux]
  | succ f ih =>
    intro l pos pw
    cases l with
    | nil => simp [saScanAux]
    | cons c rest =>
      simp only [saScanAux]
      by_cases hc : c.isDigit = true ∧ pw = false
      · rw [if_pos hc]
        by_cases hk : 4 ≤ 1 + digitRunLen rest ∧ boundaryAfter (rest.drop (digitRunLen rest)) = true
        · rw [if_pos hk, List.map_cons, List.sorted_cons]
          refine ⟨?_, ih _ _ _⟩
          intro b hb
          obtain ⟨p, hp, rfl⟩ := List.mem_map.1 hb
          have := saScanAux_start_ge f _ _ _ p hp
          show pos ≤ p.start
          omega
        · rw [if_neg hk]; exact ih _ _ _
      · rw [if_neg hc]; exact ih _ _ _

theorem saScanAux_type :
    ∀ fuel l pos pw, ∀ p ∈ saScanAux fuel l pos pw, p.pattern_type = PType.standalone_number := by
  intro fuel
  induction fuel with
  | zero => intro l pos pw p hp; simp [saScanAux] at hp
  | succ f ih =>
    intro l pos pw p hp
    cases l with
    | nil => simp [saScanAux] at hp
    | cons c rest =>
      simp only [saScanAux] at hp
      by_cases hc : c.isDigit = true ∧ pw = false
      · rw [if_pos hc] at hp
        by_cases hk : 4 ≤ 1 + digitRunLen rest ∧ boundaryAfter (rest.drop (digitRunLen rest)) = true
        · rw [if_pos hk] at hp
          rcases List.mem_cons.1 hp with rfl | hp'
          · rfl
          · exact ih _ _ _ p hp'
        · rw [if_neg hk] at hp; exact ih _ _ _ p hp
      · rw [if_neg hc] at hp; exact ih _ _ _ p hp

theorem foldl_addStandalone_decomp :
    ∀ (ms acc : List SerialPattern),
      ∃ t, ms.foldl addStandalone acc = acc ++ t ∧ t.Sublist ms := by
  intro ms
  induction ms with
  | nil => intro acc; exact ⟨[], by simp, List.nil_sublist []⟩
  | cons m rest ih =>
    intro acc
    simp only [List.foldl_cons]
    by_cases hd : acc.any (fun p => p.number == m.number) = true
    · rw [show addStandalone acc m = acc from by unfold addStandalone; rw [if_pos hd]]
      obtain ⟨t, ht, hs⟩ := ih acc
      exact ⟨t, ht, hs.cons m⟩
    · rw [show addStandalone acc m = acc ++ [m] from by unfold addStandalone; rw [if_neg hd]]
      obtain ⟨t, ht, hs⟩ := ih (acc ++ [m])
      refine ⟨m :: t, ?_, hs.cons₂ m⟩
      rw [ht, List.append_assoc]
      rfl

theorem foldl_addStandalone_dedup :
    ∀ (ms : List SerialPattern), (∀ m ∈ ms, m.pattern_type = PType.standalone_number) →
    ∀ acc, (∀ p ∈ acc, p.pattern_type = PType.standalone_number →
              ∀ q ∈ acc, q.pattern_type = PType.slash_number → p.number ≠ q.number) →
    ∀ p ∈ ms.foldl addStandalone acc, p.pattern_type = PType.standalone_number →
    ∀ q ∈ ms.foldl addStandalone acc, q.pattern_type = PType.slash_number → p.number ≠ q.number := by
  intro ms
  induction ms with
  | nil => intro _ acc hacc; exact hacc
  | cons m rest ih =>
    intro hms acc hacc
    simp only [List.foldl_cons]
    by_cases hd : acc.any (fun p => p.number == m.number) = true
    · rw [show addStandalone acc m = acc from by unfold addStandalone; rw [if_pos hd]]
      exact ih (fun x hx => hms x (List.mem_cons_of_mem m hx)) acc hacc
    · rw [show addStandalone acc m = acc ++ [m] from by unfold addStandalone; rw [if_neg hd]]
      refine ih (fun x hx => hms x (List.mem_cons_of_mem m hx)) (acc ++ [m]) ?_
      intro p hp hpt q hq hqt
      have hmty : m.pattern_type = PType.standalone_number := hms m (List.mem_cons_self m rest)
      have hqacc : q ∈ acc := by
        rcases List.mem_append.1 hq with h' | h'
        · exact h'
        · exfalso
          rcases List.mem_singleton.1 h' with rfl
          rw [hmty] at hqt
          exact absurd hqt (by decide)
      rcases List.mem_append.1 hp with hp' | hp'
      · exact hacc p hp' hpt q hqacc hqt
      · rcases List.mem_singleton.1 hp' with rfl
        have hall := List.any_eq_false.1 (Bool.eq_false_iff.2 hd)
        intro heq
        have := hall q hqacc
        simp only [beq_iff_eq] at this
        exact this heq.symm

/-- **C8 counterexample.** `find_serial_patterns("/01234 1234")` keeps the
standalone entry `"1234"` although its *numeric value* (1234) equals the
slash entry's captured `"01234"`: the source dedups by exact digit-string
equality, not by numeric value. -/
theorem find_serial_patterns_numeric_dedup_cex :
    find_serial_patterns ("/01234 1234".toList)
      = [⟨"/01234".toList, "01234".toList, 0, 6, PType.slash_number⟩,
         ⟨"1234".toList, "1234".toList, 7, 11, PType.standalone_number⟩] ∧
    digitsToNat ("1234".toList) = digitsToNat ("01234".toList) :=
  ⟨by decide, by decide⟩

/-- **C8 (amended).** No standalone-rule entry of `find_serial_patterns`
carries the *same digit string* as a slash-rule entry (dedup is by exact
string equality of the captured number, slash matches take precedence);
in particular `find_serial_patterns("/014501")` is exactly one slash-rule
pattern. -/
theorem find_serial_patterns_string_dedup (text : List Char) :
    (∀ p ∈ find_serial_patterns text, p.pattern_type = PType.standalone_number →
       ∀ q ∈ find_serial_patterns text, q.pattern_type = PType.slash_number →
         p.number ≠ q.number) ∧
    find_serial_patterns ("/014501".toList)
      = [⟨"/014501".toList, "014501".toList, 0, 7, PType.slash_number⟩] := by
  constructor
  · intro p hp hpt q hq hqt
    unfold find_serial_patterns at hp hq
    refine foldl_addStandalone_dedup (saScan text 0 false) ?_ (slashScan text 0) ?_
      p hp hpt q hq hqt
    · intro m hm
      exact saScanAux_type _ _ _ _ m hm
    · intro p' hp' hpt' q' _ _
      have := slashScanAux_type _ _ _ p' hp'
      rw [this] at hpt'
      exact absurd hpt' (by decide)
  · decide

/-- Witness for C8 (amended): on `"9999 /888"` the standalone entry `"9999"`
differs from the slash entry `"888"`. -/
theorem find_serial_patterns_string_dedup_witness :
    (⟨"9999".toList, "9999".toList, 0, 4, PType.standalone_number⟩ : SerialPattern).number
      ≠ (⟨"/888".toList, "888".toList, 5, 9, PType.slash_number⟩ : SerialPattern).number :=
  (find_serial_patterns_string_dedup ("9999 /888".toList)).1
    ⟨"9999".toList, "9999".toList, 0, 4, PType.standalone_number⟩ (by decide) rfl
    ⟨"/888".toList, "888".toList, 5, 9, PType.slash_number⟩ (by decide) rfl

/-- **C9 counterexample.** On `"1234 /567"` the output's start offsets are
`[5, 0]`: the slash-rule match (at 5) precedes the standalone match (at 0)
in the list, so the starts are *not* non-decreasing from first to last. -/
theorem find_serial_patterns_order_cex :
    (find_serial_patterns ("1234 /567".toList)).map SerialPattern.start = [5, 0] ∧
    ¬ List.Sorted (· ≤ ·) ((find_serial_patterns ("1234 /567".toList)).map SerialPattern.start) := by
  refine ⟨by decide, ?_⟩
  intro h
  rw [show (find_serial_patterns ("1234 /567".toList)).map SerialPattern.start = [5, 0]
    from by decide] at h
  have := (List.sorted_cons.1 h).1 0 (List.mem_singleton.2 rfl)
  omega

/-- **C9 (amended).** `find_serial_patterns` is ordered by rule and then by
scan position: the output is the slash-rule entries (starts non-decreasing)
followed by the surviving standalone entries (starts non-decreasing); the
two segments are not interleaved into one globally sorted list. -/
theorem find_serial_patterns_rule_then_position (text : List Char) :
    ∃ a b, find_serial_patterns text = a ++ b ∧
      (∀ p ∈ a, p.pattern_type = PType.slash_number) ∧
      (∀ p ∈ b, p.pattern_type = PType.standalone_number) ∧
      List.Sorted (· ≤ ·) (a.map SerialPattern.start) ∧
      List.Sorted (· ≤ ·) (b.map SerialPattern.start) := by
  obtain ⟨t, ht, hs⟩ := foldl_addStandalone_decomp (saScan text 0 false) (slashScan text 0)
  refine ⟨slashScan text 0, t, ht, ?_, ?_, slashScanAux_sorted _ _ _, ?_⟩
  · intro p hp
    exact slashScanAux_type _ _ _ p hp
  · intro p hp
    exact saScanAux_type _ _ _ _ p (hs.subset hp)
  · exact List.Pairwise.sublist (hs.map SerialPattern.start) (saScanAux_sorted _ _ _ _)

/-! ### Document model and the generation pipeline -/

/-- A paragraph: its `w:pPr` page-break-before flag plus its runs. -/
structure Para where
  pbb : Bool
  runs : List Run
deriving DecidableEq

/-- A table cell is a list of paragraphs; a table is rows of cells
(`python-docx` nesting, as traversed by the source). -/
abbrev Cell := List Para

abbrev Row := List Cell

abbrev Table := List Row

/-- A block-level body element: paragraph or table (the trailing `sectPr`
of a real body is not content and is not modelled). -/
inductive Block where
  | para (p : Para)
  | table (t : Table)
deriving DecidableEq

/-- The document body: its block-level elements in order. -/
abbrev Document := List Block

/-- `paragraph.text` of a `Para`. -/
def paraTextP (p : Para) : List Char := paraText p.runs

/-- `cell.text`: paragraph texts joined with `'\n'`. -/
def cellText : Cell → List Char
  | [] => []
  | [p] => paraTextP p
  | p :: rest => paraTextP p ++ '\n' :: cellText rest

def removeHighlightPara (p : Para) : Para :=
  { p with runs := p.runs.map (fun r => { r with highlight := false }) }

/-- `remove_highlighting(doc)`: clear the highlight of every run in body
paragraphs and in table-cell paragraphs. -/
def remove_highlighting (doc : Document) : Document :=
  doc.map fun b =>
    match b with
    | .para p => .para (removeHighlightPara p)
    | .table t => .table (t.map (fun row => row.map (fun cell => cell.map removeHighlightPara)))

/-- `replace_in_paragraph` lifted to a `Para`. -/
def replaceInParagraphP (old new : List Char) (p : Para) : Para :=
  { p with runs := replace_in_paragraph p.runs old new }

/-- `replace_in_table_cell(cell, old, new)`: substitute in every paragraph
of the cell. -/
def replace_in_table_cell (old new : List Char) (cell : Cell) : Cell :=
  cell.map (replaceInParagraphP old new)

/-- Apply `f` to the `k`-th element (no-op when out of range, matching the
source's bound checks). -/
def modifyNth (f : α → α) : List α → Nat → List α
  | [], _ => []
  | x :: xs, 0 => f x :: xs
  | x :: xs, k + 1 => x :: modifyNth f xs k

/-- Apply `f` to the `k`-th *top-level paragraph* of the body
(`doc.paragraphs[k]`). -/
def modifyNthParaAux (f : Para → Para) : Document → Nat → Document
  | [], _ => []
  | .para p :: rest, 0 => .para (f p) :: rest
  | .para p :: rest, k + 1 => .para p :: modifyNthParaAux f rest k
  | .table t :: rest, k => .table t :: modifyNthParaAux f rest k

/-- Apply `f` to the `k`-th *top-level table* of the body (`doc.tables[k]`). -/
def modifyNthTableAux (f : Table → Table) : Document → Nat → Document
  | [], _ => []
  | .table t :: rest, 0 => .table (f t) :: rest
  | .table t :: rest, k + 1 => .table t :: modifyNthTableAux f rest k
  | .para p :: rest, k => .para p :: modifyNthTableAux f rest k

/-- The "search entire document" replacement used for manual mappings:
every body paragraph whose text contains `old`, and every table cell whose
`cell.text` contains `old`. -/
def globalReplace (old new : List Char) (doc : Document) : Document :=
  doc.map fun b =>
    match b with
    | .para p =>
      if strContains (paraTextP p) old then .para (replaceInParagraphP old new p) else .para p
    | .table t =>
      .table (t.map (fun row => row.map (fun cell =>
        if strContains (cellText cell) old then replace_in_table_cell old new cell else cell)))

/-- Stable insertion for descending sort by position (Python
`list.sort(key=..., reverse=True)` keeps the original order of equal
keys). -/
def insDesc (x : Nat × List Char) : List (Nat × List Char) → List (Nat × List Char)
  | [] => [x]
  | y :: ys => if x.1 < y.1 then y :: insDesc x ys else x :: y :: ys

/-- Stable descending sort by position. -/
def sortPosDesc : List (Nat × List Char) → List (Nat × List Char)
  | [] => []
  | x :: xs => insDesc x (sortPosDesc xs)

/-- The multi-number replacement text of `generate_certificate`: collect
each number's rightmost position in the (still unmodified) text, sort the
pairs by position descending, then substitute the incremented values
right to left on the evolving text; `none` when some positioned number
fails to parse. -/
def computeMultiText (old : List Char) (nums : List (List Char)) (inc : Int) :
    Option (List Char) :=
  (sortPosDesc (nums.filterMap (fun num => (strRFind old num).map (fun p => (p, num))))).foldlM
    (fun txt pn =>
      (increment_serial pn.2 inc true).map
        (fun nn => txt.take pn.1 ++ nn ++ txt.drop (pn.1 + pn.2.length)))
    old

/-- Target of a field mapping: a paragraph index, a (table, row, cell)
triple, or a whole-document manual search. -/
inductive MappingLoc where
  | manual
  | paraIdx (i : Nat)
  | tableCell (t r c : Nat)
deriving DecidableEq

/-- A field mapping: its location kind, the literal `full_match`, the
primary `number`, and (for manual multi-number fields) the `numbers`
list (`none` models the absent dictionary key). -/
structure Mapping where
  loc : MappingLoc
  full_match : List Char
  number : List Char
  numbers : Option (List (List Char))
deriving DecidableEq

/-- One mapping application of `generate_certificate`'s loop body. -/
def applyMapping (inc : Int) (doc : Document) (m : Mapping) : Option Document :=
  match m.loc, m.numbers with
  | .manual, some nums =>
    (computeMultiText m.full_match nums inc).map
      (fun nt => globalReplace m.full_match nt doc)
  | loc, _ =>
    (increment_serial m.number inc true).map (fun ns =>
      let nt := replace_last_occurrence m.full_match m.number ns
      match loc with
      | .paraIdx i => modifyNthParaAux (replaceInParagraphP m.full_match nt) doc i
      | .tableCell t r c =>
        modifyNthTableAux
          (fun tbl => modifyNth (fun row =>
            modifyNth (replace_in_table_cell m.full_match nt) row c) tbl r) doc t
      | .manual => globalReplace m.full_match nt doc)

/-- The mapping loop of `generate_certificate` (an exception anywhere
aborts, modelled by `none`). -/
def applyMappings (inc : Int) : Document → List Mapping → Option Document
  | doc, [] => some doc
  | doc, m :: rest => (applyMapping inc doc m).bind (fun d => applyMappings inc d rest)

/-- `generate_certificate(template_bytes, field_mappings, increment)`: fresh
copy of the template, highlight removal, then the mapping loop. -/
def generate_certificate (tmpl : Document) (maps : List Mapping) (inc : Int) :
    Option Document :=
  applyMappings inc (remove_highlighting tmpl) maps

/-- The paragraph payload of a block, when it is one. -/
def blockPara : Block → Option Para
  | .para p => some p
  | .table _ => none

/-- `''.join(para.itertext()).strip()` is non-empty: some run text has a
non-whitespace character. -/
def hasRealText (p : Para) : Bool :=
  (paraTextP p).any (fun c => !(pyIsSpace c))

/-- A page break attached to the paragraph: a page-type `w:br` in a run or
`w:pageBreakBefore` in the paragraph properties. -/
def paraHasPageBreak (p : Para) : Bool :=
  p.pbb || p.runs.any (·.hasPageBr)

/-- The next paragraph after body position `bi` (tables skipped), as in the
source's walk over `body.findall('w:p')`. -/
def nextParaAfter (body : Document) (bi : Nat) : Option Para :=
  ((body.drop (bi + 1)).filterMap blockPara).head?

/-- The body element preceding position `bi`. -/
def prevBlock (body : Document) (bi : Nat) : Option Block :=
  if bi = 0 then none else body[bi - 1]?

/-- First-pass removal mark of `remove_blank_pages`, computed against the
*original* body: an empty page-break paragraph whose next paragraph also
has `pageBreakBefore`, or a completely empty paragraph (no text, no break,
no drawing) directly preceded by another empty paragraph. -/
def mark1 (body : Document) (bi : Nat) (b : Block) : Bool :=
  match b with
  | .table _ => false
  | .para p =>
    if paraHasPageBreak p && !(hasRealText p) then
      match nextParaAfter body bi with
      | some np => np.pbb
      | none => false
    else if !(hasRealText p) && !(paraHasPageBreak p) then
      if p.runs.any (·.hasDrawing) then false
      else
        match prevBlock body bi with
        | some (.para pp) => !(hasRealText pp)
        | _ => false
    else false

/-- Walk of the first pass: marks are taken on the original body, marked
paragraphs are dropped. -/
def pass1Aux (orig : Document) : Nat → Document → Document
  | _, [] => []
  | bi, b :: rest =>
    if mark1 orig bi b then pass1Aux orig (bi + 1) rest
    else b :: pass1Aux orig (bi + 1) rest

/-- Second-pass removal mark: a whitespace-only paragraph whose single run
holds a page-type `w:br` and no drawing. -/
def mark2 (b : Block) : Bool :=
  match b with
  | .table _ => false
  | .para p =>
    !(hasRealText p) &&
      (match p.runs with
       | [r] => r.hasPageBr && !r.hasDrawing
       | _ => false)

/-- `remove_blank_pages(doc)` from the source: the two cleanup passes. -/
def remove_blank_pages (body : Document) : Document :=
  (pass1Aux body 0 body).filter (fun b => !(mark2 b))

/-- Page-break insertion of `create_combined_document`: a paragraph-first
certificate gets `pageBreakBefore` on its first paragraph; a table-first
one gets a synthetic empty page-break paragraph prepended. -/
def addBreakToFirst : Document → Document
  | [] => []
  | .para p :: rest => .para { p with pbb := true } :: rest
  | .table t :: rest => .para ⟨true, []⟩ :: .table t :: rest

/-- The `for i in range(1, count)` loop of `create_combined_document`:
`k` iterations remain, the next index is `i`. -/
def combineAux (tmpl : Document) (maps : List Mapping) :
    Nat → Nat → Document → Option Document
  | 0, _, acc => some acc
  | k + 1, i, acc =>
    (generate_certificate tmpl maps (Int.ofNat i)).bind (fun cert =>
      combineAux tmpl maps k (i + 1) (if cert = [] then acc else acc ++ addBreakToFirst cert))

/-- `create_combined_document(template_bytes, field_mappings, count)`:
certificate 0 is the base; certificates `1..count-1` are appended with a
page-break marker before their first block; then the blank-page cleanup
runs (serialization to bytes is not modelled; the body is returned). -/
def create_combined_document (tmpl : Document) (maps : List Mapping) (count : Nat) :
    Option Document :=
  (generate_certificate tmpl maps 0).bind (fun base =>
    (combineAux tmpl maps (count - 1) 1 base).map remove_blank_pages)

/-- Concatenation of certificate bodies. -/
def appendAll : List Document → Document
  | [] => []
  | d :: rest => d ++ appendAll rest

/-- The body shape the combined-document claim describes: certificate 0's
blocks, then each later certificate's blocks with the page-break marker
inserted before its first block. -/
def combineExpected : List Document → Document
  | [] => []
  | d :: rest => d ++ appendAll (rest.map addBreakToFirst)

/-- A generated certificate for which the blank-page cleanup is inert: its
body starts with a paragraph and every top-level paragraph has
non-whitespace text. -/
def goodCert (d : Document) : Bool :=
  (match d with
   | .para _ :: _ => true
   | _ => false) &&
  d.all (fun b =>
    match b with
    | .para p => hasRealText p
    | .table _ => true)

theorem foldlM_pair (f : List Char → (Nat × List Char) → Option (List Char))
    (t0 : List Char) (x y : Nat × List Char) :
    List.foldlM f t0 [x, y] = (f t0 x).bind (fun t1 => f t1 y) := by
  cases hfx : f t0 x with
  | none => simp [List.foldlM, hfx]
  | some t1 =>
    cases hfy : f t1 y with
    | none => simp [List.foldlM, hfx, hfy]
    | some t2 => simp [List.foldlM, hfx, hfy]

/-- **C6.** The multi-number replacement text is computed from the numbers'
rightmost positions in the *original* `full_match`, sorted descending, and
substituted right to left, so an earlier (right-side) substitution of a
different length never invalidates a left-ward offset: for a text
`a ++ n2 ++ b ++ n1 ++ c` whose rightmost occurrences of `n2`/`n1` are at
those split points, the result replaces each number by its incremented
value in place; and on the spec's example `"A100B200C300"` with numbers
`["100","200","300"]` and delta 1 the result is `"A101B201C301"`. -/
theorem computeMultiText_right_to_left
    (a n2 b n1 c : List Char) (inc : Int) (s1 s2 : List Char)
    (hn2 : n2 ≠ [])
    (h1 : strRFind (a ++ n2 ++ b ++ n1 ++ c) n1 = some (a.length + n2.length + b.length))
    (h2 : strRFind (a ++ n2 ++ b ++ n1 ++ c) n2 = some a.length)
    (hi1 : increment_serial n1 inc true = some s1)
    (hi2 : increment_serial n2 inc true = some s2) :
    computeMultiText (a ++ n2 ++ b ++ n1 ++ c) [n2, n1] inc
      = some (a ++ s2 ++ b ++ s1 ++ c)
    ∧ computeMultiText ("A100B200C300".toList)
        ["100".toList, "200".toList, "300".toList] 1
      = some ("A101B201C301".toList) := by
  refine ⟨?_, by decide⟩
  unfold computeMultiText
  rw [show ([n2, n1].filterMap
        (fun num => (strRFind (a ++ n2 ++ b ++ n1 ++ c) num).map (fun p => (p, num))))
      = [(a.length, n2), (a.length + n2.length + b.length, n1)] from by
    simp only [List.filterMap_cons, List.filterMap_nil, h1, h2, Option.map_some']]
  rw [show sortPosDesc [(a.length, n2), (a.length + n2.length + b.length, n1)]
      = [(a.length + n2.length + b.length, n1), (a.length, n2)] from by
    have hlt : a.length < a.length + n2.length + b.length := by
      have := List.length_pos.2 hn2
      omega
    simp [sortPosDesc, insDesc, hlt]]
  rw [foldlM_pair]
  simp only [hi1, Option.map_some', Option.some_bind, hi2]
  have e1 : (a ++ n2 ++ b ++ n1 ++ c).take (a.length + n2.length + b.length)
      = a ++ n2 ++ b := by
    rw [show a ++ n2 ++ b ++ n1 ++ c = (a ++ n2 ++ b) ++ (n1 ++ c) from by
        simp [List.append_assoc],
      show a.length + n2.length + b.length = (a ++ n2 ++ b).length from by
        simp [List.length_append]; omega]
    exact List.take_left _ _
  have e2 : (a ++ n2 ++ b ++ n1 ++ c).drop (a.length + n2.length + b.length + n1.length)
      = c := by
    rw [show a ++ n2 ++ b ++ n1 ++ c = (a ++ n2 ++ b ++ n1) ++ c from by
        simp [List.append_assoc],
      show a.length + n2.length + b.length + n1.length = (a ++ n2 ++ b ++ n1).length from by
        simp [List.length_append]; omega]
    exact List.drop_left _ _
  rw [e1, e2]
  have e3 : ((a ++ n2 ++ b) ++ s1 ++ c).take a.length = a := by
    rw [show (a ++ n2 ++ b) ++ s1 ++ c = a ++ (n2 ++ b ++ s1 ++ c) from by
      simp [List.append_assoc]]
    exact List.take_left _ _
  have e4 : ((a ++ n2 ++ b) ++ s1 ++ c).drop (a.length + n2.length) = b ++ s1 ++ c := by
    rw [show (a ++ n2 ++ b) ++ s1 ++ c = (a ++ n2) ++ (b ++ s1 ++ c) from by
        simp [List.append_assoc],
      show a.length + n2.length = (a ++ n2).length from by simp [List.length_append]]
    exact List.drop_left _ _
  rw [e3, e4]
  simp [List.append_assoc]

/-- Witness for C6 at `"A100B200"` with numbers `["100","200"]`, delta 1. -/
theorem computeMultiText_right_to_left_witness :
    computeMultiText ("A".toList ++ "100".toList ++ "B".toList ++ "200".toList ++ [])
        [("100".toList), ("200".toList)] 1
      = some ("A".toList ++ "101".toList ++ "B".toList ++ "201".toList ++ [])
    ∧ computeMultiText ("A100B200C300".toList)
        ["100".toList, "200".toList, "300".toList] 1
      = some ("A101B201C301".toList) :=
  computeMultiText_right_to_left ("A".toList) ("100".toList) ("B".toList) ("200".toList) []
    1 ("201".toList) ("101".toList) (by decide) (by decide) (by decide) (by decide) (by decide)

/-- **C2 counterexample.** For the template made of one empty paragraph and
`count = 3`, the blank-page cleanup deletes the middle certificate's
page-break paragraph (it is empty, carries a page break, and is followed
by another `pageBreakBefore` paragraph): the result has 2 blocks and 1
marker instead of the claimed 3 blocks and 2 markers. -/
theorem create_combined_blank_collapse_cex :
    create_combined_document [Block.para ⟨false, []⟩] [] 3
      = some [Block.para ⟨false, []⟩, Block.para ⟨true, []⟩] ∧
    (create_combined_document [Block.para ⟨false, []⟩] [] 3).map List.length = some 2 :=
  ⟨by decide, by decide⟩

theorem goodCert_ne_nil (d : Document) (h : goodCert d = true) : d ≠ [] := by
  intro hd
  subst hd
  simp [goodCert] at h

theorem goodCert_real_text (d : Document) (h : goodCert d = true) :
    ∀ b ∈ d, ∀ p : Para, b = Block.para p → hasRealText p = true := by
  simp only [goodCert, Bool.and_eq_true, List.all_eq_true] at h
  intro b hb p hbp
  have := h.2 b hb
  rw [hbp] at this
  simpa using this

theorem addBreakToFirst_real_text (d : Document) (hgood : goodCert d = true) :
    ∀ b ∈ addBreakToFirst d, ∀ p : Para, b = Block.para p → hasRealText p = true := by
  cases d with
  | nil => intro b hb; simp [addBreakToFirst] at hb
  | cons b0 rest =>
    cases b0 with
    | table t => simp [goodCert] at hgood
    | para p0 =>
      intro b hb p hbp
      simp only [addBreakToFirst] at hb
      rcases List.mem_cons.1 hb with rfl | hb'
      · have h0 : hasRealText p0 = true :=
          goodCert_real_text _ hgood (Block.para p0) (List.mem_cons_self _ _) p0 rfl
        injection hbp with h
        rw [← h]
        simpa [hasRealText, paraTextP] using h0
      · exact goodCert_real_text _ hgood b (List.mem_cons_of_mem _ hb') p hbp

theorem mem_appendAll {b : Block} : ∀ (L : List Document), b ∈ appendAll L → ∃ l ∈ L, b ∈ l := by
  intro L
  induction L with
  | nil => intro h; simp [appendAll] at h
  | cons d rest ih =>
    intro h
    simp only [appendAll] at h
    rcases List.mem_append.1 h with h' | h'
    · exact ⟨d, List.mem_cons_self _ _, h'⟩
    · obtain ⟨l, hl, hbl⟩ := ih h'
      exact ⟨l, List.mem_cons_of_mem _ hl, hbl⟩

theorem mark1_false (orig : Document) (bi : Nat) (b : Block)
    (h : ∀ p : Para, b = Block.para p → hasRealText p = true) :
    mark1 orig bi b = false := by
  cases b with
  | table t => rfl
  | para p =>
    have hp := h p rfl
    simp [mark1, hp]

theorem pass1Aux_id (orig : Document) :
    ∀ (l : Document) (bi : Nat),
      (∀ b ∈ l, ∀ p : Para, b = Block.para p → hasRealText p = true) →
      pass1Aux orig bi l = l := by
  intro l
  induction l with
  | nil => intro bi _; rfl
  | cons b rest ih =>
    intro bi h
    simp only [pass1Aux]
    rw [mark1_false orig bi b (h b (List.mem_cons_self _ _))]
    simp only [Bool.false_eq_true, if_false]
    rw [ih (bi + 1) (fun b' hb' => h b' (List.mem_cons_of_mem _ hb'))]

theorem remove_blank_pages_id (body : Document)
    (h : ∀ b ∈ body, ∀ p : Para, b = Block.para p → hasRealText p = true) :
    remove_blank_pages body = body := by
  unfold remove_blank_pages
  rw [pass1Aux_id body body 0 h]
  apply List.filter_eq_self.2
  intro b hb
  have hm : mark2 b = false := by
    cases b with
    | table t => rfl
    | para p =>
      have hp := h (Block.para p) hb p rfl
      simp [mark2, hp]
  simp [hm]

theorem combineAux_spec (tmpl : Document) (maps : List Mapping) :
    ∀ (k i : Nat) (acc : Document),
      (∀ j, i ≤ j → j < i + k →
        ∃ d, generate_certificate tmpl maps (Int.ofNat j) = some d ∧ d ≠ []) →
      combineAux tmpl maps k i acc
        = some (acc ++ appendAll ((List.range k).map
            (fun j => addBreakToFirst
              ((generate_certificate tmpl maps (Int.ofNat (i + j))).getD [])))) := by
  intro k
  induction k with
  | zero => intro i acc _; simp [combineAux, appendAll]
  | succ k ih =>
    intro i acc h
    obtain ⟨d, hd, hdne⟩ := h i (Nat.le_refl i) (by omega)
    simp only [combineAux]
    rw [hd]
    simp only [Option.some_bind]
    rw [if_neg hdne]
    rw [ih (i + 1) (acc ++ addBreakToFirst d) (fun j hj1 hj2 => h j (by omega) (by omega))]
    congr 1
    rw [List.range_succ_eq_map, List.map_cons, List.map_map]
    rw [show (generate_certificate tmpl maps (Int.ofNat (i + 0))).getD [] = d from by
      rw [show i + 0 = i from rfl, hd]; rfl]
    show acc ++ addBreakToFirst d ++ _ = acc ++ (addBreakToFirst d ++ _)
    rw [List.append_assoc]
    congr 2
    refine congrArg appendAll (List.map_congr_left ?_)
    intro j _
    simp only [Function.comp]
    rw [show i + Nat.succ j = i + 1 + j from by omega]

/-- **C2 (amended).** When every certificate generates successfully, starts
with a paragraph block, and all of its top-level paragraphs carry
non-whitespace text (so the blank-page cleanup is inert), the combined
document's body is exactly certificate 0's blocks followed, for each
`i ∈ 1..N-1`, by certificate `i`'s blocks with a page-break-before marker
on the first (paragraph) block: `N` occurrences of the block structure and
`N-1` inserted markers.  Without those conditions the cleanup can delete
blocks (see the counterexample), and a table-first certificate's synthetic
marker paragraph can itself be deleted when `N ≥ 3`. -/
theorem create_combined_structure (tmpl : Document) (maps : List Mapping) (N : Nat)
    (hN : 1 ≤ N)
    (h : ∀ i, i < N →
      ∃ d, generate_certificate tmpl maps (Int.ofNat i) = some d ∧ goodCert d = true) :
    ∃ ds : List Document, ds.length = N ∧
      (∀ i, i < N → generate_certificate tmpl maps (Int.ofNat i) = some (ds.getD i [])) ∧
      create_combined_document tmpl maps N = some (combineExpected ds) := by
  refine ⟨(List.range N).map
    (fun i => (generate_certificate tmpl maps (Int.ofNat i)).getD []), by simp, ?_, ?_⟩
  · intro i hi
    obtain ⟨d, hd, _⟩ := h i hi
    rw [hd]
    congr 1
    rw [List.getD_eq_getElem?_getD, List.getElem?_map, List.getElem?_range hi]
    simp only [Option.map_some', Option.getD_some]
    rw [hd]
    rfl
  · obtain ⟨d0, hd0, hg0⟩ := h 0 (by omega)
    have hd0' : generate_certificate tmpl maps 0 = some d0 := hd0
    unfold create_combined_document
    rw [hd0']
    simp only [Option.some_bind]
    rw [combineAux_spec tmpl maps (N - 1) 1 d0 (fun j hj1 hj2 => by
      obtain ⟨d, hd, hg⟩ := h j (by omega)
      exact ⟨d, hd, goodCert_ne_nil d hg⟩)]
    simp only [Option.map_some']
    congr 1
    have hshape : combineExpected ((List.range N).map
          fun i => (generate_certificate tmpl maps (Int.ofNat i)).getD [])
        = d0 ++ appendAll ((List.range (N - 1)).map
            (fun j => addBreakToFirst
              ((generate_certificate tmpl maps (Int.ofNat (1 + j))).getD []))) := by
      obtain ⟨M, rfl⟩ : ∃ M, N = M + 1 := ⟨N - 1, by omega⟩
      rw [List.range_succ_eq_map, List.map_cons, List.map_map]
      simp only [combineExpected, List.map_map]
      rw [show (generate_certificate tmpl maps (Int.ofNat 0)).getD [] = d0 from by
        rw [hd0]; rfl]
      congr 1
      rw [show M + 1 - 1 = M from by omega]
      refine congrArg appendAll (List.map_congr_left ?_)
      intro j _
      simp only [Function.comp]
      rw [show 1 + j = Nat.succ j from by omega]
    rw [hshape]
    apply remove_blank_pages_id
    intro b hb p hbp
    rcases List.mem_append.1 hb with hb' | hb'
    · exact goodCert_real_text d0 hg0 b hb' p hbp
    · obtain ⟨l, hl, hbl⟩ := mem_appendAll _ hb'
      obtain ⟨j, hj, rfl⟩ := List.mem_map.1 hl
      have hjN : 1 + j < N := by
        have := List.mem_range.1 hj
        omega
      obtain ⟨d, hd, hg⟩ := h (1 + j) hjN
      rw [show (generate_certificate tmpl maps (Int.ofNat (1 + j))).getD [] = d from by
        rw [hd]; rfl] at hbl
      exact addBreakToFirst_real_text d hg b hbl p hbp

/-- Witness for C2 (amended) at a one-paragraph `"Hi"` template, no
mappings, `N = 2`. -/
theorem create_combined_structure_witness :
    ∃ ds : List Document, ds.length = 2 ∧
      (∀ i, i < 2 →
        generate_certificate [Block.para ⟨false, [mkRun ("Hi".toList)]⟩] [] (Int.ofNat i)
          = some (ds.getD i [])) ∧
      create_combined_document [Block.para ⟨false, [mkRun ("Hi".toList)]⟩] [] 2
        = some (combineExpected ds) :=
  create_combined_structure [Block.para ⟨false, [mkRun ("Hi".toList)]⟩] [] 2 (by omega)
    (fun i hi => by
      interval_cases i <;>
        exact ⟨[Block.para ⟨false, [mkRun ("Hi".toList)]⟩], by decide, by decide⟩)
